import Mathlib

/-!
Verification development for the spreadsheet-reconciliation pipeline
(`code.py`): header detection, prefixing loader, overlap analysis,
fuzzy matching, the left-join cascade, and final deduplication.

Tables are shallowly embedded: a cell is `Option String` (`none` models a
missing value / NaN, matching `dtype=str` loading), a row is an association
list from column name to cell (pandas rows with a fixed column order), and a
table carries its column list (needed to null-fill unmatched sides of a left
join).  Pandas `drop_duplicates(keep="first")` is modelled by a keep-first
deduplication, in which (as in pandas) missing values compare equal.
-/

/-- A cell value: `none` models a missing value (NaN). -/
abbrev Cell := Option String

/-- A row: association list from column name to cell, in column order. -/
abbrev Row := List (String × Cell)

/-- Column lookup, as `df.loc[row, col]`: first entry with the given name;
a missing column reads as a missing value. -/
def getCol : Row → String → Cell
  | [], _ => none
  | p :: ps, c => if p.fst == c then p.snd else getCol ps c

/-- Whether a row carries a column of the given name. -/
def hasCol (r : Row) (c : String) : Bool :=
  r.any (fun p => p.fst == c)

/-- Column assignment, as `df[c] = v`: any existing entry for `c` is
replaced (the entry is re-appended at the end; only the column order
differs from pandas, which no lookup or row-equality argument depends on,
since every row of a frame is transformed uniformly). -/
def setCol (r : Row) (c : String) (v : Cell) : Row :=
  r.filter (fun p => p.fst != c) ++ [(c, v)]

/-- Column projection-away, as `df.drop(columns=cs)`. -/
def dropCols (cs : List String) (r : Row) : Row :=
  r.filter (fun p => !(cs.contains p.fst))

/-- Keep-first deduplication by a key, carrying the set of already-seen
keys: the recursion behind `drop_duplicates(keep="first")`. -/
def dedupSeen {α κ : Type} [DecidableEq κ] (f : α → κ) (seen : List κ) :
    List α → List α
  | [] => []
  | a :: as =>
    if f a ∈ seen then dedupSeen f seen as
    else a :: dedupSeen f (f a :: seen) as

/-- `drop_duplicates(keep="first")` keyed by `f` (`f = id` is the full-row
deduplication; a column subset is a key function over the row). -/
def dedupKeyFirst {α κ : Type} [DecidableEq κ] (f : α → κ) (l : List α) : List α :=
  dedupSeen f [] l

/-- The keys seen after scanning a list, starting from `seen`. -/
def collectKeys {α κ : Type} [DecidableEq κ] (f : α → κ) (seen : List κ) :
    List α → List κ
  | [] => seen
  | a :: as =>
    if f a ∈ seen then collectKeys f seen as
    else collectKeys f (f a :: seen) as

theorem dedupSeen_sublist {α κ : Type} [DecidableEq κ] (f : α → κ)
    (seen : List κ) (l : List α) : (dedupSeen f seen l).Sublist l := by
  induction l generalizing seen with
  | nil => simp [dedupSeen]
  | cons a as ih =>
    simp only [dedupSeen]
    split
    · exact (ih seen).cons a
    · exact (ih (f a :: seen)).cons₂ a

theorem mem_of_mem_dedupSeen {α κ : Type} [DecidableEq κ] {f : α → κ}
    {seen : List κ} {l : List α} {a : α} (h : a ∈ dedupSeen f seen l) :
    a ∈ l :=
  (dedupSeen_sublist f seen l).mem h

theorem key_not_seen_of_mem_dedupSeen {α κ : Type} [DecidableEq κ] {f : α → κ}
    {seen : List κ} {l : List α} {a : α} (h : a ∈ dedupSeen f seen l) :
    f a ∉ seen := by
  induction l generalizing seen with
  | nil => simp [dedupSeen] at h
  | cons b bs ih =>
    simp only [dedupSeen] at h
    split at h
    · exact ih h
    · rcases List.mem_cons.mp h with rfl | hmem
      · assumption
      · intro hs
        exact ih hmem (List.mem_cons_of_mem _ hs)

theorem dedupSeen_pairwise {α κ : Type} [DecidableEq κ] (f : α → κ)
    (seen : List κ) (l : List α) :
    (dedupSeen f seen l).Pairwise (fun a b => f a ≠ f b) := by
  induction l generalizing seen with
  | nil => simp [dedupSeen]
  | cons a as ih =>
    simp only [dedupSeen]
    split
    · exact ih seen
    · refine List.Pairwise.cons ?_ (ih (f a :: seen))
      intro b hb hfeq
      exact key_not_seen_of_mem_dedupSeen hb (by simp [hfeq])

theorem exists_key_mem_dedupSeen {α κ : Type} [DecidableEq κ] (f : α → κ)
    (l : List α) (a : α) :
    a ∈ l → ∀ seen : List κ, f a ∉ seen → ∃ r ∈ dedupSeen f seen l, f r = f a := by
  induction l with
  | nil => intro ha; cases ha
  | cons b bs ih =>
    intro ha seen hns
    simp only [dedupSeen]
    rcases List.mem_cons.mp ha with rfl | hmem
    · split
      · exact absurd (by assumption) hns
      · exact ⟨a, List.mem_cons_self a _, rfl⟩
    · split
      · exact ih hmem seen hns
      · by_cases hk : f a = f b
        · exact ⟨b, List.mem_cons_self b _, hk.symm⟩
        · obtain ⟨r, hr, hfr⟩ := ih hmem (f b :: seen)
            (by simp [hns, hk])
          exact ⟨r, List.mem_cons_of_mem _ hr, hfr⟩

theorem mem_dedupKeyFirst_id {α : Type} [DecidableEq α] {l : List α} {a : α}
    (ha : a ∈ l) : a ∈ dedupKeyFirst id l := by
  obtain ⟨r, hr, hfr⟩ := exists_key_mem_dedupSeen (id : α → α) l a ha [] (by simp)
  have hra : r = a := hfr
  subst hra
  simpa [dedupKeyFirst] using hr

theorem dedupKeyFirst_id_nodup {α : Type} [DecidableEq α] (l : List α) :
    (dedupKeyFirst id l).Nodup :=
  dedupSeen_pairwise id [] l

/-- Every element of the deduplicated list is the first element of the
input bearing its key (among those with keys outside `seen`). -/
theorem dedupSeen_first_occurrence {α κ : Type} [DecidableEq κ] {f : α → κ}
    {seen : List κ} {l : List α} {r : α} (h : r ∈ dedupSeen f seen l) :
    ∃ l1 l2, l = l1 ++ r :: l2 ∧ ∀ x ∈ l1, f x ≠ f r ∨ f x ∈ seen := by
  induction l generalizing seen with
  | nil => simp [dedupSeen] at h
  | cons a as ih =>
    simp only [dedupSeen] at h
    split at h
    · obtain ⟨l1, l2, heq, hl1⟩ := ih h
      refine ⟨a :: l1, l2, by simp [heq], ?_⟩
      intro x hx
      rcases List.mem_cons.mp hx with rfl | hx'
      · right; assumption
      · exact hl1 x hx'
    · rcases List.mem_cons.mp h with rfl | hmem
      · exact ⟨[], as, rfl, by simp⟩
      · obtain ⟨l1, l2, heq, hl1⟩ := ih hmem
        have hrns : f r ∉ f a :: seen := key_not_seen_of_mem_dedupSeen hmem
        refine ⟨a :: l1, l2, by simp [heq], ?_⟩
        intro x hx
        rcases List.mem_cons.mp hx with rfl | hx'
        · left
          intro hc
          exact hrns (by simp [hc])
        · rcases hl1 x hx' with hne | hs
          · exact Or.inl hne
          · rcases List.mem_cons.mp hs with hxa | hxseen
            · left
              intro hc
              exact hrns (by rw [← hc, hxa]; exact List.mem_cons_self _ _)
            · exact Or.inr hxseen

theorem dedupKeyFirst_first_occurrence {α κ : Type} [DecidableEq κ]
    {f : α → κ} {l : List α} {r : α} (h : r ∈ dedupKeyFirst f l) :
    ∃ l1 l2, l = l1 ++ r :: l2 ∧ ∀ x ∈ l1, f x ≠ f r := by
  obtain ⟨l1, l2, heq, hl1⟩ := dedupSeen_first_occurrence h
  exact ⟨l1, l2, heq, fun x hx => (hl1 x hx).resolve_right (by simp)⟩

theorem dedupSeen_append {α κ : Type} [DecidableEq κ] (f : α → κ)
    (seen : List κ) (l1 l2 : List α) :
    dedupSeen f seen (l1 ++ l2) =
      dedupSeen f seen l1 ++ dedupSeen f (collectKeys f seen l1) l2 := by
  induction l1 generalizing seen with
  | nil => simp [dedupSeen, collectKeys]
  | cons a as ih =>
    simp only [List.cons_append, dedupSeen, collectKeys]
    split
    · exact ih seen
    · simp [ih (f a :: seen)]

theorem dedupSeen_congr_seen {α κ : Type} [DecidableEq κ] (f : α → κ)
    (s1 s2 : List κ) (l : List α)
    (h : ∀ b ∈ l, (f b ∈ s1 ↔ f b ∈ s2)) :
    dedupSeen f s1 l = dedupSeen f s2 l := by
  induction l generalizing s1 s2 with
  | nil => rfl
  | cons a as ih =>
    have ha := h a (List.mem_cons_self a as)
    simp only [dedupSeen]
    by_cases h1 : f a ∈ s1
    · rw [if_pos h1, if_pos (ha.mp h1)]
      exact ih s1 s2 (fun b hb => h b (List.mem_cons_of_mem a hb))
    · rw [if_neg h1, if_neg (fun h2 => h1 (ha.mpr h2))]
      refine congrArg _ (ih (f a :: s1) (f a :: s2) ?_)
      intro b hb
      simp only [List.mem_cons]
      rw [h b (List.mem_cons_of_mem a hb)]

theorem mem_collectKeys {α κ : Type} [DecidableEq κ] (f : α → κ)
    (seen : List κ) (l : List α) (k : κ) :
    k ∈ collectKeys f seen l ↔ k ∈ seen ∨ k ∈ l.map f := by
  induction l generalizing seen with
  | nil => simp [collectKeys]
  | cons a as ih =>
    simp only [collectKeys, List.map_cons, List.mem_cons]
    split
    · rw [ih seen]
      constructor
      · tauto
      · rintro (h | h | h)
        · exact Or.inl h
        · exact Or.inl (h ▸ (by assumption))
        · exact Or.inr h
    · rw [ih (f a :: seen)]
      simp only [List.mem_cons]
      tauto

/-- When no element of a later block equals an element of an earlier block,
keep-first full-row deduplication acts blockwise. -/
theorem dedupKeyFirst_id_flatten {α : Type} [DecidableEq α]
    (blocks : List (List α))
    (h : blocks.Pairwise (fun B C => ∀ a ∈ B, ∀ b ∈ C, a ≠ b)) :
    dedupKeyFirst id blocks.flatten = (blocks.map (dedupKeyFirst id)).flatten := by
  induction blocks with
  | nil => rfl
  | cons B bs ih =>
    have hB : ∀ b ∈ bs.flatten, b ∉ B := by
      intro b hb hbB
      obtain ⟨C, hC, hbC⟩ := List.mem_flatten.mp hb
      exact (List.pairwise_cons.mp h).1 C hC b hbB b hbC rfl
    simp only [List.flatten_cons, List.map_cons]
    rw [dedupKeyFirst, dedupSeen_append]
    have hcongr : dedupSeen id (collectKeys id [] B) bs.flatten =
        dedupSeen id [] bs.flatten := by
      refine dedupSeen_congr_seen id _ [] bs.flatten ?_
      intro b hb
      rw [mem_collectKeys]
      simp only [List.map_id, List.not_mem_nil, false_or, iff_false]
      exact hB b hb
    rw [hcongr]
    have := ih (List.pairwise_cons.mp h).2
    rw [dedupKeyFirst] at this
    rw [this]
    rfl

/- ### Prefixing loader (`load_and_prefix`, code.py lines 45-57) -/

/-- Python `c.startswith(pre)` on strings. -/
def pyStartsWith (c pre : String) : Bool :=
  pre.data.isPrefixOf c.data

/-- The loader's column renaming (code.py line 55):
`f"{prefix}{c}" if not c.startswith(prefix) else c`. -/
def prefixCol (pre c : String) : String :=
  if pyStartsWith c pre then c else pre ++ c

/-- Rename every column of a row with `prefixCol` (the loader's
`df.rename(columns=...)`). -/
def prefixRow (pre : String) (r : Row) : Row :=
  r.map (fun p => (prefixCol pre p.fst, p.snd))

/-- One input file of a category, abstracting the external tabular source:
its (base)name and its rows as read with `dtype=str` after the
column-name strip of code.py line 52. -/
structure SrcFile where
  name : String
  rows : List Row
deriving DecidableEq

/-- Stamp provenance and prefix column names, per code.py lines 53-55:
set `<prefix>file_source` to the file name and `<prefix>file_source_type`
to the category label, then rename all columns with `prefixCol`. -/
def stampRow (pre ftype name : String) (r : Row) : Row :=
  prefixRow pre
    (setCol (setCol r (pre ++ "file_source") (some name))
      (pre ++ "file_source_type") (some ftype))

/-- All rows contributed by one file, stamped and renamed. -/
def fileBlock (pre ftype : String) (f : SrcFile) : List Row :=
  f.rows.map (stampRow pre ftype f.name)

/-- `load_and_prefix` (code.py lines 45-57): per file, stamp provenance and
prefix the column names; then union all files' rows
(`pd.concat(...)`), and remove exact-duplicate rows
(`.drop_duplicates(ignore_index=True)`, keep-first over the full row). -/
def loadCategory (files : List SrcFile) (pre ftype : String) : List Row :=
  dedupKeyFirst id ((files.map (fileBlock pre ftype)).flatten)

theorem pyStartsWith_append (pre c : String) :
    pyStartsWith (pre ++ c) pre = true := by
  rw [pyStartsWith, List.isPrefixOf_iff_prefix, String.data_append]
  exact List.prefix_append pre.data c.data

theorem prefixCol_idem (pre c : String) :
    prefixCol pre (prefixCol pre c) = prefixCol pre c := by
  by_cases h : pyStartsWith c pre = true
  · simp [prefixCol, h]
  · have h1 : prefixCol pre c = pre ++ c := by
      simp [prefixCol, h]
    rw [h1, prefixCol, if_pos (pyStartsWith_append pre c)]

theorem prefixCol_of_append (pre s : String) :
    prefixCol pre (pre ++ s) = pre ++ s := by
  rw [prefixCol, if_pos (pyStartsWith_append pre s)]

theorem append_ne_of_ne_suffix (pre a b : String) (h : a ≠ b) :
    pre ++ a ≠ pre ++ b := by
  intro hc
  apply h
  apply String.ext
  have : (pre ++ a).data = (pre ++ b).data := by rw [hc]
  rw [String.data_append, String.data_append] at this
  exact List.append_cancel_left this

/-- Every stamped row ends with its two provenance entries. -/
theorem stampRow_decomp (pre ftype name : String) (r : Row) :
    ∃ r', stampRow pre ftype name r =
      r' ++ [(pre ++ "file_source", some name),
             (pre ++ "file_source_type", some ftype)] := by
  have hk : pre ++ "file_source" ≠ pre ++ "file_source_type" :=
    append_ne_of_ne_suffix pre _ _ (by decide)
  have hb : (pre ++ "file_source" != pre ++ "file_source_type") = true := by
    simpa using hk
  refine ⟨prefixRow pre
    (((r.filter (fun p => p.fst != pre ++ "file_source")).filter
      (fun p => p.fst != pre ++ "file_source_type"))), ?_⟩
  simp only [stampRow, setCol, List.filter_append, prefixRow,
    List.map_append]
  simp [hb, prefixCol_of_append]

theorem append_pair_tail_ne {x y : Row} {k k2 : String} {n1 n2 : Cell}
    {t : Cell} (h : n1 ≠ n2) :
    x ++ [(k, n1), (k2, t)] ≠ y ++ [(k, n2), (k2, t)] := by
  intro hc
  have hrev := congrArg List.reverse hc
  simp only [List.reverse_append, List.reverse_cons, List.reverse_nil,
    List.nil_append, List.cons_append, List.cons.injEq, Prod.mk.injEq] at hrev
  exact h hrev.2.1.2

/-- Rows stamped with different file names are never equal. -/
theorem stampRow_ne (pre ftype n1 n2 : String) (r1 r2 : Row)
    (h : n1 ≠ n2) :
    stampRow pre ftype n1 r1 ≠ stampRow pre ftype n2 r2 := by
  obtain ⟨x, hx⟩ := stampRow_decomp pre ftype n1 r1
  obtain ⟨y, hy⟩ := stampRow_decomp pre ftype n2 r2
  rw [hx, hy]
  exact append_pair_tail_ne (by simpa using h)

/-- C6: the Prefixing Loader's column renaming is idempotent: a name
already carrying the prefix is left unchanged, so re-applying the renaming
(e.g. loading a category twice) never double-prefixes a column. -/
theorem claim_C6 (pre : String) :
    (∀ c : String, prefixCol pre (prefixCol pre c) = prefixCol pre c) ∧
    (∀ r : Row, prefixRow pre (prefixRow pre r) = prefixRow pre r) := by
  refine ⟨prefixCol_idem pre, ?_⟩
  intro r
  simp only [prefixRow, List.map_map]
  congr 1
  funext p
  simp [Function.comp, prefixCol_idem]

/-- C9: every Category Table returned by the Prefixing Loader has no two
identical rows: exact duplicates are removed (keep-first) after the union
of all files of the category. -/
theorem claim_C9 (files : List SrcFile) (pre ftype : String) :
    (loadCategory files pre ftype).Nodup :=
  dedupKeyFirst_id_nodup _

/-- C10: provenance columns are stamped per file before the union, so the
loader's duplicate removal only collapses rows from the same file: the
union deduplicates blockwise, and every row of every file survives as its
own stamped copy (in particular, identical data rows in two differently
named files both survive). -/
theorem claim_C10 (files : List SrcFile) (pre ftype : String)
    (hnames : (files.map SrcFile.name).Pairwise (· ≠ ·)) :
    loadCategory files pre ftype =
      (files.map (fun f => dedupKeyFirst id (fileBlock pre ftype f))).flatten ∧
    ∀ f ∈ files, ∀ r ∈ f.rows,
      stampRow pre ftype f.name r ∈ loadCategory files pre ftype := by
  constructor
  · rw [loadCategory]
    have hpw : (files.map (fileBlock pre ftype)).Pairwise
        (fun B C => ∀ a ∈ B, ∀ b ∈ C, a ≠ b) := by
      rw [List.pairwise_map]
      have hn : files.Pairwise (fun f g => f.name ≠ g.name) := by
        rwa [List.pairwise_map] at hnames
      refine hn.imp ?_
      intro f g hfg a ha b hb
      rw [fileBlock] at ha hb
      obtain ⟨ra, _, hra⟩ := List.mem_map.mp ha
      obtain ⟨rb, _, hrb⟩ := List.mem_map.mp hb
      rw [← hra, ← hrb]
      exact stampRow_ne pre ftype f.name g.name ra rb hfg
    rw [dedupKeyFirst_id_flatten _ hpw, List.map_map]
    rfl
  · intro f hf r hr
    apply mem_dedupKeyFirst_id
    rw [List.mem_flatten]
    exact ⟨fileBlock pre ftype f,
      List.mem_map_of_mem (fileBlock pre ftype) hf,
      List.mem_map_of_mem _ hr⟩

theorem claim_C10_witness :
    (([⟨"inv_a.xlsx", [[("Investor ID", some "I1")]]⟩,
       ⟨"inv_b.xlsx", [[("Investor ID", some "I1")]]⟩] : List SrcFile).map
        SrcFile.name).Pairwise (· ≠ ·) ∧
    (loadCategory
        [⟨"inv_a.xlsx", [[("Investor ID", some "I1")]]⟩,
         ⟨"inv_b.xlsx", [[("Investor ID", some "I1")]]⟩] "inv." "investors" =
      (([⟨"inv_a.xlsx", [[("Investor ID", some "I1")]]⟩,
         ⟨"inv_b.xlsx", [[("Investor ID", some "I1")]]⟩] : List SrcFile).map
        (fun f => dedupKeyFirst id (fileBlock "inv." "investors" f))).flatten ∧
    ∀ f ∈ ([⟨"inv_a.xlsx", [[("Investor ID", some "I1")]]⟩,
            ⟨"inv_b.xlsx", [[("Investor ID", some "I1")]]⟩] : List SrcFile),
      ∀ r ∈ f.rows, stampRow "inv." "investors" f.name r ∈
        loadCategory
          [⟨"inv_a.xlsx", [[("Investor ID", some "I1")]]⟩,
           ⟨"inv_b.xlsx", [[("Investor ID", some "I1")]]⟩] "inv." "investors") :=
  ⟨by decide, claim_C10 _ "inv." "investors" (by decide)⟩

/- ### Header Locator (`detect_header_row`, code.py lines 36-42) -/

/-- Python `str.strip()`: drop leading and trailing whitespace.
(Defined on the character list so that it evaluates in the kernel.) -/
def pyStrip (s : String) : String :=
  String.mk
    (((s.data.dropWhile Char.isWhitespace).reverse.dropWhile
      Char.isWhitespace).reverse)

/-- Token set of one preview row (code.py line 39): drop missing cells,
stringify, strip.  Stringification is the identity here because cells are
already strings. -/
def rowTokens (row : List Cell) : List String :=
  (row.filterMap id).map pyStrip

/-- `any(c in tokens for c in id_cols)` (code.py line 40). -/
def rowMatchesHeader (idCols : List String) (row : List Cell) : Bool :=
  idCols.any (fun c => (rowTokens row).contains c)

/-- The scan loop of `detect_header_row`: return the current index at the
first matching row, else keep scanning. -/
def detectHeaderAux (idCols : List String) : Nat → List (List Cell) → Option Nat
  | _, [] => none
  | i, row :: rest =>
    if rowMatchesHeader idCols row then some i
    else detectHeaderAux idCols (i + 1) rest

/-- `detect_header_row` (code.py lines 36-42) on an abstract source:
scan the first 20 physical rows; `none` models the raised `ValueError`. -/
def detect_header_row (src : List (List Cell)) (idCols : List String) :
    Option Nat :=
  detectHeaderAux idCols 0 (src.take 20)

/-- Modelled from the spec's words (spec 4.1): the set of NON-EMPTY,
trimmed, stringified cell values of a row. -/
def specRowTokens (row : List Cell) : List String :=
  (rowTokens row).filter (fun t => t != "")

/-- Modelled from the spec's words: a row qualifies when its non-empty
token set intersects the acceptable labels. -/
def specRowMatches (idCols : List String) (row : List Cell) : Bool :=
  idCols.any (fun c => (specRowTokens row).contains c)

/-- Modelled from the spec's words: the same scan loop over the spec-side
row predicate. -/
def specDetectAux (idCols : List String) : Nat → List (List Cell) → Option Nat
  | _, [] => none
  | i, row :: rest =>
    if specRowMatches idCols row then some i
    else specDetectAux idCols (i + 1) rest

/-- Modelled from the spec's words (spec 4.1): index of the first of the
first 20 rows whose non-empty token set intersects the labels. -/
def detectHeaderRowSpec (src : List (List Cell)) (idCols : List String) :
    Option Nat :=
  specDetectAux idCols 0 (src.take 20)

theorem rowMatches_eq_spec (idCols : List String) (row : List Cell)
    (h : "" ∉ idCols) :
    rowMatchesHeader idCols row = specRowMatches idCols row := by
  rw [Bool.eq_iff_iff]
  simp only [rowMatchesHeader, specRowMatches, List.any_eq_true]
  constructor
  · rintro ⟨c, hc, hct⟩
    refine ⟨c, hc, ?_⟩
    have hcne : c ≠ "" := fun hce => h (hce ▸ hc)
    simp only [specRowTokens]
    simp only [List.elem_iff] at hct ⊢
    exact List.mem_filter.mpr ⟨hct, by simpa using hcne⟩
  · rintro ⟨c, hc, hct⟩
    refine ⟨c, hc, ?_⟩
    simp only [specRowTokens] at hct
    simp only [List.elem_iff] at hct ⊢
    exact (List.mem_filter.mp hct).1

theorem detectAux_eq_spec (idCols : List String) (h : "" ∉ idCols) :
    ∀ (i : Nat) (rows : List (List Cell)),
      detectHeaderAux idCols i rows = specDetectAux idCols i rows := by
  intro i rows
  induction rows generalizing i with
  | nil => rfl
  | cons r rs ih =>
    simp only [detectHeaderAux, specDetectAux, rowMatches_eq_spec idCols r h]
    split
    · rfl
    · exact ih (i + 1)

theorem specDetectAux_eq_none_iff (idCols : List String) :
    ∀ (i : Nat) (rows : List (List Cell)),
      specDetectAux idCols i rows = none ↔
        ∀ row ∈ rows, specRowMatches idCols row = false := by
  intro i rows
  induction rows generalizing i with
  | nil => simp [specDetectAux]
  | cons r rs ih =>
    simp only [specDetectAux]
    by_cases hr : specRowMatches idCols r = true
    · simp [hr]
    · have hrf : specRowMatches idCols r = false := by
        simpa using hr
      simp [hrf, ih (i + 1)]

theorem specDetectAux_eq_some (idCols : List String) :
    ∀ (rows : List (List Cell)) (i j : Nat),
      specDetectAux idCols i rows = some j →
        ∃ k, j = i + k ∧
          (∃ row, rows[k]? = some row ∧ specRowMatches idCols row = true) ∧
          ∀ m < k, ∀ row, rows[m]? = some row →
            specRowMatches idCols row = false := by
  intro rows
  induction rows with
  | nil => intro i j h; simp [specDetectAux] at h
  | cons r rs ih =>
    intro i j h
    simp only [specDetectAux] at h
    by_cases hmatch : specRowMatches idCols r = true
    · rw [if_pos hmatch] at h
      have hij : j = i := by simpa using h.symm
      subst hij
      refine ⟨0, by omega, ⟨r, by simp, hmatch⟩, ?_⟩
      intro m hm row hrow'
      exact absurd hm (Nat.not_lt_zero m)
    · rw [if_neg hmatch] at h
      obtain ⟨k, hk, ⟨row0, hrow0, hm0⟩, hbefore⟩ := ih (i + 1) j h
      refine ⟨k + 1, by omega, ⟨row0, by simpa using hrow0, hm0⟩, ?_⟩
      intro m hm row hrow'
      match m with
      | 0 =>
        have hrr : row = r := by
          have := hrow'
          simp only [List.getElem?_cons_zero, Option.some.injEq] at this
          exact this.symm
        subst hrr
        simpa using hmatch
      | m' + 1 =>
        exact hbefore m' (by omega) row (by simpa using hrow')

/-- C5 counterexample: with a blank-but-present cell (a whitespace-only
string cell survives `dropna` and strips to the empty string) and the
empty string among the acceptable labels, the code returns row 0 although
that row's set of NON-EMPTY trimmed values is empty and so does not
intersect the labels — the claim as stated demands an error here. -/
theorem claim_C5_counterexample :
    detect_header_row [[some " "]] [""] = some 0 ∧
    specRowMatches [""] [some " "] = false ∧
    detectHeaderRowSpec [[some " "]] [""] = none := by
  decide

/-- C5 (amended): whenever the empty string is not among the acceptable
labels, the Header Locator behaves exactly as the claim states: it equals
the spec-side search (index of the first of the first 20 rows whose set of
non-empty trimmed stringified cell values intersects the labels), it
errors (`none`) iff no such row exists in the window, and a returned index
always points at the first qualifying row.  The code's token set differs
from the spec's only in that a blank-but-present cell contributes the
empty-string token. -/
theorem claim_C5 (src : List (List Cell)) (idCols : List String)
    (h : "" ∉ idCols) :
    detect_header_row src idCols = detectHeaderRowSpec src idCols ∧
    (detect_header_row src idCols = none ↔
      ∀ row ∈ src.take 20, specRowMatches idCols row = false) ∧
    (∀ j, detect_header_row src idCols = some j →
      (∃ row, (src.take 20)[j]? = some row ∧
        specRowMatches idCols row = true) ∧
      ∀ m < j, ∀ row, (src.take 20)[m]? = some row →
        specRowMatches idCols row = false) := by
  have heq : detect_header_row src idCols = detectHeaderRowSpec src idCols := by
    rw [detect_header_row, detectHeaderRowSpec]
    exact detectAux_eq_spec idCols h 0 (src.take 20)
  refine ⟨heq, ?_, ?_⟩
  · rw [heq, detectHeaderRowSpec]
    exact specDetectAux_eq_none_iff idCols 0 (src.take 20)
  · intro j hj
    rw [heq, detectHeaderRowSpec] at hj
    obtain ⟨k, hk, hrow, hbefore⟩ := specDetectAux_eq_some idCols _ 0 j hj
    have hkj : k = j := by omega
    subst hkj
    exact ⟨hrow, hbefore⟩

theorem claim_C5_witness :
    ("" ∉ (["Deal ID"] : List String)) ∧
    (detect_header_row [[some "note"], [some " Deal ID ", some "x"]]
        ["Deal ID"] =
      detectHeaderRowSpec [[some "note"], [some " Deal ID ", some "x"]]
        ["Deal ID"] ∧
    (detect_header_row [[some "note"], [some " Deal ID ", some "x"]]
        ["Deal ID"] = none ↔
      ∀ row ∈ ([[some "note"], [some " Deal ID ", some "x"]] :
          List (List Cell)).take 20,
        specRowMatches ["Deal ID"] row = false) ∧
    (∀ j, detect_header_row [[some "note"], [some " Deal ID ", some "x"]]
        ["Deal ID"] = some j →
      (∃ row, (([[some "note"], [some " Deal ID ", some "x"]] :
          List (List Cell)).take 20)[j]? = some row ∧
        specRowMatches ["Deal ID"] row = true) ∧
      ∀ m < j, ∀ row, (([[some "note"], [some " Deal ID ", some "x"]] :
          List (List Cell)).take 20)[m]? = some row →
        specRowMatches ["Deal ID"] row = false)) :=
  ⟨by decide, claim_C5 [[some "note"], [some " Deal ID ", some "x"]]
    ["Deal ID"] (by decide)⟩

/- ### Mapping loader (`mapping_df`, code.py lines 135-152) -/

/-- One raw mapping row: the three `usecols` read with `dtype=str`. -/
structure MapTriple where
  dealID : Cell
  companyID : Cell
  investorID : Cell
deriving DecidableEq

/-- One mapping file: basename and raw rows as read. -/
structure MapFile where
  name : String
  rows : List MapTriple
deriving DecidableEq

/-- Per-file processing (code.py lines 136-142): read the three key
columns, drop full-row duplicates (here the full row IS the triple), then
stamp `map.file_source` / `map.file_source_type`. -/
def mapFileRows (f : MapFile) : List Row :=
  (dedupKeyFirst id f.rows).map (fun t =>
    [("Deal ID", t.dealID), ("Company ID", t.companyID),
     ("Investor ID", t.investorID),
     ("map.file_source", some f.name),
     ("map.file_source_type", some "mapping")])

/-- The rename of code.py lines 146-150. -/
def mapColRename (c : String) : String :=
  if c == "Deal ID" then "map.Deal ID"
  else if c == "Company ID" then "map.Company ID"
  else if c == "Investor ID" then "map.Investor ID"
  else c

def renameMapCols (r : Row) : Row :=
  r.map (fun p => (mapColRename p.fst, p.snd))

/-- `.str.strip()` on the `map.Investor ID` column (code.py line 152);
a missing value stays missing. -/
def stripInvestorCol (r : Row) : Row :=
  r.map (fun p =>
    if p.fst == "map.Investor ID" then (p.fst, p.snd.map pyStrip) else p)

/-- The mapping table right after its deduplication point (code.py line
145): concatenate all files' stamped rows and drop exact duplicates over
all five columns — the key triple AND the provenance columns. -/
def loadMappingPreStrip (files : List MapFile) : List Row :=
  dedupKeyFirst id ((files.map mapFileRows).flatten)

/-- `mapping_df` as passed to the first left-join (code.py lines 143-152):
deduplicate, rename the key columns under the `map.` prefix, then strip
the investor key. -/
def loadMapping (files : List MapFile) : List Row :=
  ((loadMappingPreStrip files).map renameMapCols).map stripInvestorCol

/-- The (Deal ID, Investor ID, Company ID) key triple of a mapping row. -/
def mapTriple (r : Row) : Cell × Cell × Cell :=
  (getCol r "map.Deal ID", getCol r "map.Investor ID",
   getCol r "map.Company ID")

/-- C1 counterexample: the same key triple appearing in two differently
named mapping files survives twice, because the concat-level
`drop_duplicates()` keys on the full row including `map.file_source`.  So
the mapping table passed to the first left-join is NOT deduplicated on
the key triple. -/
theorem claim_C1_counterexample :
    ¬ (loadMapping
        [⟨"map_a.xlsx", [⟨some "D1", some "C1", some "I1"⟩]⟩,
         ⟨"map_b.xlsx", [⟨some "D1", some "C1", some "I1"⟩]⟩]).Pairwise
      (fun r1 r2 => mapTriple r1 ≠ mapTriple r2) := by
  decide

/-- C1 (amended): the mapping table is deduplicated per file on the key
triple, and globally (at code.py line 145, before the Investor-ID strip)
on the full row including the provenance columns — so no two of its rows
are identical there, but rows originating from different files may share
a key triple. -/
theorem claim_C1 (files : List MapFile) :
    (loadMappingPreStrip files).Nodup ∧
    ∀ f ∈ files, (dedupKeyFirst id f.rows).Nodup := by
  exact ⟨dedupKeyFirst_id_nodup _, fun f _ => dedupKeyFirst_id_nodup _⟩

/- ### Join Orchestrator (code.py lines 173-189) -/

/-- A data frame: its column list plus its rows. -/
structure DTable where
  cols : List String
  rows : List Row
deriving DecidableEq

/-- The all-missing row over a column list: the right-hand side attached
to a left row with no match. -/
def nullRow (cols : List String) : Row :=
  cols.map (fun c => (c, (none : Cell)))

/-- The right-side rows whose key equals a given value (pandas `merge`
matches missing keys with missing keys). -/
def matchRows (R : DTable) (rk : String) (v : Cell) : List Row :=
  R.rows.filter (fun r => getCol r rk == v)

/-- The rows one left row contributes to a left join: one null-extended
row when no right row matches, else one extension per matching right
row (in right-table order, as pandas does). -/
def headMerge (l : Row) (R : DTable) (lk rk : String) : List Row :=
  if (matchRows R rk (getCol l lk)).isEmpty then [l ++ nullRow R.cols]
  else (matchRows R rk (getCol l lk)).map (fun r => l ++ r)

/-- Row-level left join, preserving left row order. -/
def mergeRows : List Row → DTable → String → String → List Row
  | [], _, _, _ => []
  | l :: ls, R, lk, rk => headMerge l R lk rk ++ mergeRows ls R lk rk

/-- `L.merge(R, left_on=lk, right_on=rk, how="left")`. -/
def mergeLeft (L R : DTable) (lk rk : String) : DTable :=
  ⟨L.cols ++ R.cols, mergeRows L.rows R lk rk⟩

/-- The four-step cascade (code.py lines 175-189):
mapping → deals → investors → companies → people-via-fuzzy-key. -/
def buildMerged (mapping deals investors companies people : DTable) : DTable :=
  mergeLeft
    (mergeLeft
      (mergeLeft (mergeLeft mapping deals "map.Deal ID" "deals.Deal ID")
        investors "map.Investor ID" "inv.Investor ID")
      companies "map.Company ID" "comp.Company ID")
    people "fuzzy_people" "people.Primary Company"

/-- At most one row per join-key value in a table. -/
abbrev keyUnique (R : DTable) (rk : String) : Prop :=
  R.rows.Pairwise (fun a b => getCol a rk ≠ getCol b rk)

theorem length_filter_le_one_of_pairwise (f : Row → Cell) (l : List Row)
    (h : l.Pairwise (fun a b => f a ≠ f b))
    (v : Cell) : (l.filter (fun a => f a == v)).length ≤ 1 := by
  induction l with
  | nil => simp
  | cons a as ih =>
    rcases List.pairwise_cons.mp h with ⟨ha, htail⟩
    by_cases hv : (f a == v) = true
    · rw [List.filter_cons, if_pos hv]
      have hnil : as.filter (fun b => f b == v) = [] := by
        rw [List.filter_eq_nil_iff]
        intro b hb
        have hne : f a ≠ f b := ha b hb
        have hfa : f a = v := by simpa using hv
        have hbv : f b ≠ v := fun hb2 => hne (hfa.trans hb2.symm)
        simpa using hbv
      simp [hnil]
    · rw [List.filter_cons, if_neg hv]
      exact ih htail

theorem matchRows_length_le_one {R : DTable} {rk : String}
    (h : keyUnique R rk) (v : Cell) : (matchRows R rk v).length ≤ 1 := by
  rw [matchRows]
  exact length_filter_le_one_of_pairwise _ _ h v

theorem headMerge_length_one {l : Row} {R : DTable} {lk rk : String}
    (h : keyUnique R rk) : (headMerge l R lk rk).length = 1 := by
  rw [headMerge]
  split
  · simp
  · rename_i hne
    have h1 : (matchRows R rk (getCol l lk)).length ≤ 1 :=
      matchRows_length_le_one h _
    have h2 : (matchRows R rk (getCol l lk)) ≠ [] := by
      simpa [List.isEmpty_iff] using hne
    have h3 : 0 < (matchRows R rk (getCol l lk)).length :=
      List.length_pos.mpr h2
    simp only [List.length_map]
    omega

theorem headMerge_ne_nil (l : Row) (R : DTable) (lk rk : String) :
    headMerge l R lk rk ≠ [] := by
  rw [headMerge]
  split
  · simp
  · rename_i hne
    rw [ne_eq, List.map_eq_nil_iff]
    simpa [List.isEmpty_iff] using hne

theorem mem_headMerge_decomp {l : Row} {R : DTable} {lk rk : String}
    {r : Row} (h : r ∈ headMerge l R lk rk) : ∃ t, r = l ++ t := by
  rw [headMerge] at h
  split at h
  · exact ⟨nullRow R.cols, by simpa using h⟩
  · obtain ⟨x, _, hx⟩ := List.mem_map.mp h
    exact ⟨x, hx.symm⟩

theorem mergeRows_length (Lrows : List Row) (R : DTable) (lk rk : String)
    (h : keyUnique R rk) :
    (mergeRows Lrows R lk rk).length = Lrows.length := by
  induction Lrows with
  | nil => rfl
  | cons l ls ih =>
    simp only [mergeRows, List.length_append, ih, List.length_cons,
      headMerge_length_one h]
    omega

theorem mem_mergeRows_decomp {Lrows : List Row} {R : DTable}
    {lk rk : String} {r : Row} (h : r ∈ mergeRows Lrows R lk rk) :
    ∃ l ∈ Lrows, ∃ t, r = l ++ t := by
  induction Lrows with
  | nil => simp [mergeRows] at h
  | cons l ls ih =>
    simp only [mergeRows, List.mem_append] at h
    rcases h with h | h
    · obtain ⟨t, ht⟩ := mem_headMerge_decomp h
      exact ⟨l, List.mem_cons_self l ls, t, ht⟩
    · obtain ⟨l0, hl0, t, ht⟩ := ih h
      exact ⟨l0, List.mem_cons_of_mem l hl0, t, ht⟩

theorem exists_extension_mem_mergeRows {Lrows : List Row} (R : DTable)
    (lk rk : String) {l : Row} (hl : l ∈ Lrows) :
    ∃ r ∈ mergeRows Lrows R lk rk, ∃ t, r = l ++ t := by
  induction Lrows with
  | nil => cases hl
  | cons a as ih =>
    rcases List.mem_cons.mp hl with rfl | hmem
    · obtain ⟨r, hr⟩ :=
        List.exists_mem_of_ne_nil _ (headMerge_ne_nil l R lk rk)
      obtain ⟨t, ht⟩ := mem_headMerge_decomp hr
      exact ⟨r, by simp [mergeRows, hr], t, ht⟩
    · obtain ⟨r, hr, t, ht⟩ := ih hmem
      exact ⟨r, by simp [mergeRows, hr], t, ht⟩

/- ### Cleanup & Projector (code.py lines 191-201) -/

/-- The scaffold columns dropped at code.py line 196. -/
def scaffoldCols : List String :=
  ["map.Deal ID", "map.Company ID", "map.Investor ID", "fuzzy_people"]

/-- Per-row cleanup (code.py lines 193-196): copy the mapping join's
investor key into the canonical `deals.Investor ID` column, then drop the
scaffold columns. -/
def cleanupRow (r : Row) : Row :=
  dropCols scaffoldCols (setCol r "deals.Investor ID" (getCol r "map.Investor ID"))

/-- The dedup key of code.py lines 197-200. -/
def tripleKey (r : Row) : Cell × Cell × Cell :=
  (getCol r "deals.Deal ID", getCol r "deals.Investor ID",
   getCol r "deals.Company ID")

/-- `final_df` (code.py lines 194-201): cleanup then
`drop_duplicates(subset=key triple)`, keep-first. -/
def finalRows (merged : List Row) : List Row :=
  dedupKeyFirst tripleKey (merged.map cleanupRow)

theorem getCol_setCol (r : Row) (c : String) (v : Cell) :
    getCol (setCol r c v) c = v := by
  rw [setCol]
  induction r with
  | nil => simp [getCol]
  | cons p ps ih =>
    by_cases hne : (p.fst != c) = true
    · rw [List.filter_cons, if_pos hne, List.cons_append, getCol,
        if_neg (by simpa using hne)]
      exact ih
    · rw [List.filter_cons, if_neg hne]
      exact ih

theorem getCol_append_left {r : Row} {c : String} (h : hasCol r c = true)
    (t : Row) : getCol (r ++ t) c = getCol r c := by
  induction r with
  | nil => simp [hasCol] at h
  | cons p ps ih =>
    by_cases hc : (p.fst == c) = true
    · rw [List.cons_append, getCol, if_pos hc, getCol, if_pos hc]
    · have h' : hasCol ps c = true := by
        have := h
        simp only [hasCol, List.any_cons, Bool.or_eq_true] at this
        exact this.resolve_left hc
      rw [List.cons_append, getCol, if_neg hc, getCol, if_neg hc]
      exact ih h'

theorem hasCol_append_left {r : Row} {c : String} (h : hasCol r c = true)
    (t : Row) : hasCol (r ++ t) c = true := by
  simp only [hasCol, List.any_append, Bool.or_eq_true]
  exact Or.inl h

theorem getCol_dropCols {cs : List String} {c : String} (h : c ∉ cs)
    (r : Row) : getCol (dropCols cs r) c = getCol r c := by
  rw [dropCols]
  induction r with
  | nil => rfl
  | cons p ps ih =>
    by_cases hc : (p.fst == c) = true
    · have hpc : p.fst = c := by simpa using hc
      have hkeep : (!(cs.contains p.fst)) = true := by
        rw [hpc]
        simpa using h
      rw [List.filter_cons, if_pos hkeep, getCol, if_pos hc, getCol,
        if_pos hc]
    · by_cases hkeep : (!(cs.contains p.fst)) = true
      · rw [List.filter_cons, if_pos hkeep, getCol, if_neg hc, getCol,
          if_neg hc]
        exact ih
      · rw [List.filter_cons, if_neg hkeep, getCol, if_neg hc]
        exact ih

theorem getCol_cleanupRow_investor (r : Row) :
    getCol (cleanupRow r) "deals.Investor ID" = getCol r "map.Investor ID" := by
  rw [cleanupRow, getCol_dropCols (by decide), getCol_setCol]

/-- Sample tables used to instantiate the join-cascade theorems: three
mapping triples, deals/companies missing one key, a single investor with
no fuzzy match, and a people table matching nothing. -/
def sampleMapping : DTable :=
  ⟨["map.Deal ID", "map.Company ID", "map.Investor ID"],
   [[("map.Deal ID", some "D1"), ("map.Company ID", some "C1"),
     ("map.Investor ID", some "I1")],
    [("map.Deal ID", some "D2"), ("map.Company ID", some "C2"),
     ("map.Investor ID", some "I2")],
    [("map.Deal ID", some "D3"), ("map.Company ID", some "C3"),
     ("map.Investor ID", some "I3")]]⟩

def sampleDeals : DTable :=
  ⟨["deals.Deal ID", "deals.Company ID"],
   [[("deals.Deal ID", some "D1"), ("deals.Company ID", some "C1")],
    [("deals.Deal ID", some "D2"), ("deals.Company ID", some "C2")]]⟩

def sampleInvestors : DTable :=
  ⟨["inv.Investor ID", "fuzzy_people"],
   [[("inv.Investor ID", some "I1"), ("fuzzy_people", none)]]⟩

def sampleCompanies : DTable :=
  ⟨["comp.Company ID"],
   [[("comp.Company ID", some "C1")], [("comp.Company ID", some "C2")]]⟩

def samplePeople : DTable :=
  ⟨["people.Primary Company"],
   [[("people.Primary Company", some "Acme Co")]]⟩

/-- C2: the cascade is LEFT throughout: unconditionally — for arbitrary
side tables, fan-out included — every mapping row survives as a prefix of
some output row (nulls fill unmatched sides); and when additionally each
right-hand table has at most one row per join-key value, the output has
exactly one row per mapping row. -/
theorem claim_C2 (mapping deals investors companies people : DTable) :
    (∀ m ∈ mapping.rows,
      ∃ r ∈ (buildMerged mapping deals investors companies people).rows,
        ∃ t, r = m ++ t) ∧
    (keyUnique deals "deals.Deal ID" →
      keyUnique investors "inv.Investor ID" →
      keyUnique companies "comp.Company ID" →
      keyUnique people "people.Primary Company" →
      (buildMerged mapping deals investors companies people).rows.length =
        mapping.rows.length) := by
  constructor
  · intro m hm
    simp only [buildMerged, mergeLeft]
    obtain ⟨r1, hr1, t1, rfl⟩ :=
      exists_extension_mem_mergeRows deals "map.Deal ID" "deals.Deal ID" hm
    obtain ⟨r2, hr2, t2, rfl⟩ :=
      exists_extension_mem_mergeRows investors "map.Investor ID"
        "inv.Investor ID" hr1
    obtain ⟨r3, hr3, t3, rfl⟩ :=
      exists_extension_mem_mergeRows companies "map.Company ID"
        "comp.Company ID" hr2
    obtain ⟨r4, hr4, t4, rfl⟩ :=
      exists_extension_mem_mergeRows people "fuzzy_people"
        "people.Primary Company" hr3
    exact ⟨(((m ++ t1) ++ t2) ++ t3) ++ t4, hr4,
      t1 ++ (t2 ++ (t3 ++ t4)), by simp [List.append_assoc]⟩
  · intro h1 h2 h3 h4
    simp only [buildMerged, mergeLeft]
    rw [mergeRows_length _ _ _ _ h4, mergeRows_length _ _ _ _ h3,
      mergeRows_length _ _ _ _ h2, mergeRows_length _ _ _ _ h1]

theorem claim_C2_witness :
    keyUnique sampleDeals "deals.Deal ID" ∧
    keyUnique sampleInvestors "inv.Investor ID" ∧
    keyUnique sampleCompanies "comp.Company ID" ∧
    keyUnique samplePeople "people.Primary Company" ∧
    sampleMapping.rows.length = 3 ∧
    ((∀ m ∈ sampleMapping.rows,
      ∃ r ∈ (buildMerged sampleMapping sampleDeals sampleInvestors
          sampleCompanies samplePeople).rows, ∃ t, r = m ++ t) ∧
    (buildMerged sampleMapping sampleDeals sampleInvestors sampleCompanies
        samplePeople).rows.length = sampleMapping.rows.length) :=
  ⟨by decide, by decide, by decide, by decide, by decide,
   (claim_C2 sampleMapping sampleDeals sampleInvestors sampleCompanies
     samplePeople).1,
   (claim_C2 sampleMapping sampleDeals sampleInvestors sampleCompanies
     samplePeople).2 (by decide) (by decide) (by decide) (by decide)⟩

/-- C3: after cleanup, the keep-first deduplication on the
(Deal ID, Investor ID, Company ID) triple leaves exactly one row per
triple — every pre-dedupe triple is represented, the surviving row is the
first occurrence in pre-dedupe order, and no two surviving rows share a
triple. -/
theorem claim_C3 (merged : List Row) :
    (finalRows merged).Pairwise (fun a b => tripleKey a ≠ tripleKey b) ∧
    (∀ p ∈ merged.map cleanupRow,
      ∃ r ∈ finalRows merged, tripleKey r = tripleKey p) ∧
    (∀ r ∈ finalRows merged,
      ∃ l1 l2, merged.map cleanupRow = l1 ++ r :: l2 ∧
        ∀ x ∈ l1, tripleKey x ≠ tripleKey r) := by
  refine ⟨dedupSeen_pairwise _ _ _, ?_,
    fun r hr => dedupKeyFirst_first_occurrence hr⟩
  intro p hp
  exact exists_key_mem_dedupSeen tripleKey _ p hp [] (by simp)

/-- C4: in every row of the final output, the canonical
`deals.Investor ID` equals the `map.Investor ID` of the mapping row the
cascade row was built from — the join's investor key, not anything from
inside the investor table. -/
theorem claim_C4 (mapping deals investors companies people : DTable)
    (hm : ∀ m ∈ mapping.rows, hasCol m "map.Investor ID" = true) :
    ∀ r ∈ finalRows (buildMerged mapping deals investors companies
        people).rows,
      ∃ m ∈ mapping.rows,
        getCol r "deals.Investor ID" = getCol m "map.Investor ID" := by
  intro r hr
  have hr' : r ∈ ((buildMerged mapping deals investors companies
      people).rows.map cleanupRow) := mem_of_mem_dedupSeen hr
  obtain ⟨mr, hmr, hEq⟩ := List.mem_map.mp hr'
  rw [← hEq, getCol_cleanupRow_investor]
  simp only [buildMerged, mergeLeft] at hmr
  obtain ⟨l3, hl3, t4, rfl⟩ := mem_mergeRows_decomp hmr
  obtain ⟨l2, hl2, t3, rfl⟩ := mem_mergeRows_decomp hl3
  obtain ⟨l1, hl1, t2, rfl⟩ := mem_mergeRows_decomp hl2
  obtain ⟨m, hm0, t1, rfl⟩ := mem_mergeRows_decomp hl1
  refine ⟨m, hm0, ?_⟩
  have hc1 : hasCol m "map.Investor ID" = true := hm m hm0
  rw [getCol_append_left (hasCol_append_left (hasCol_append_left
      (hasCol_append_left hc1 t1) t2) t3) t4,
    getCol_append_left (hasCol_append_left (hasCol_append_left hc1 t1)
      t2) t3,
    getCol_append_left (hasCol_append_left hc1 t1) t2,
    getCol_append_left hc1 t1]

theorem claim_C4_witness :
    (∀ m ∈ sampleMapping.rows, hasCol m "map.Investor ID" = true) ∧
    (∀ r ∈ finalRows (buildMerged sampleMapping sampleDeals
        sampleInvestors sampleCompanies samplePeople).rows,
      ∃ m ∈ sampleMapping.rows,
        getCol r "deals.Investor ID" = getCol m "map.Investor ID") :=
  ⟨by decide, claim_C4 sampleMapping sampleDeals sampleInvestors
    sampleCompanies samplePeople (by decide)⟩

/- ### Fuzzy Matcher (code.py lines 101-126) -/

/-- The characters kept by `re.sub(r"[^a-z0-9 ]", "", s)`. -/
def keepChar (c : Char) : Bool :=
  (decide ('a' ≤ c) && decide (c ≤ 'z')) ||
  (decide ('0' ≤ c) && decide (c ≤ '9')) || (c == ' ')

/-- `normalize_text` (code.py lines 103-104): lowercase, delete every
character outside lowercase alphanumerics and spaces, strip. -/
def normalize_text (s : String) : String :=
  pyStrip (String.mk ((s.data.map Char.toLower).filter keepChar))

/-- Split a character list into whitespace-separated tokens (Python
`str.split()`, used by the token-sort scorer); the accumulator holds the
current token reversed. -/
def splitTokens : List Char → List Char → List (List Char)
  | [], acc => if acc.isEmpty then [] else [acc.reverse]
  | c :: cs, acc =>
    if c.isWhitespace then
      (if acc.isEmpty then splitTokens cs [] else acc.reverse :: splitTokens cs [])
    else splitTokens cs (c :: acc)

/-- Code-point lexicographic order on character lists: Python string
comparison as used by `sorted`. -/
def lexLe : List Char → List Char → Bool
  | [], _ => true
  | _ :: _, [] => false
  | a :: as, b :: bs => if a == b then lexLe as bs else decide (a < b)

def insertTok (t : List Char) : List (List Char) → List (List Char)
  | [] => [t]
  | u :: us => if lexLe t u then t :: u :: us else u :: insertTok t us

/-- Ascending sort of the token list (Python `sorted`). -/
def sortToks : List (List Char) → List (List Char)
  | [] => []
  | t :: ts => insertTok t (sortToks ts)

/-- Re-join tokens with single spaces (`" ".join(...)`). -/
def joinTokens : List (List Char) → List Char
  | [] => []
  | [t] => t
  | t :: ts => t ++ ' ' :: joinTokens ts

/-- The token-sort preprocessing of `fuzz.token_sort_ratio`: split into
tokens, sort them alphabetically, re-join with single spaces. -/
def tokenSortJoin (s : String) : List Char :=
  joinTokens (sortToks (splitTokens s.data []))

/-- Longest-common-subsequence length, driven by explicit fuel so that it
is structurally recursive (and so evaluates in the kernel); the fuel
`a.length + b.length` always suffices. -/
def lcsFuel : Nat → List Char → List Char → Nat
  | 0, _, _ => 0
  | _ + 1, [], _ => 0
  | _ + 1, _ :: _, [] => 0
  | fuel + 1, a :: as, b :: bs =>
    if a == b then 1 + lcsFuel fuel as bs
    else max (lcsFuel fuel (a :: as) bs) (lcsFuel fuel as (b :: bs))

def lcsLen (a b : List Char) : Nat := lcsFuel (a.length + b.length) a b

/-- `fuzz.ratio`: the normalized InDel similarity on a 0-100 scale.  The
InDel distance is `len1 + len2 - 2*lcs`, so the similarity is
`100 * 2*lcs / (len1 + len2)`; two empty strings score 100. -/
def ratioQ (a b : List Char) : ℚ :=
  if a.length + b.length = 0 then 100
  else 100 * (2 * (lcsLen a b : ℚ)) / ((a.length : ℚ) + (b.length : ℚ))

/-- `fuzz.token_sort_ratio`: the InDel ratio of the token-sorted forms. -/
def tokenSortScore (a b : String) : ℚ :=
  ratioQ (tokenSortJoin a) (tokenSortJoin b)

theorem lcsFuel_self :
    ∀ (fuel : Nat) (a : List Char), a.length ≤ fuel →
      lcsFuel fuel a a = a.length := by
  intro fuel
  induction fuel with
  | zero =>
    intro a ha
    have h0 : a = [] := List.eq_nil_of_length_eq_zero (by omega)
    subst h0
    rfl
  | succ f ih =>
    intro a ha
    match a with
    | [] => rfl
    | x :: as =>
      simp only [lcsFuel, beq_self_eq_true, if_true, List.length_cons]
      rw [ih as (by simp only [List.length_cons] at ha; omega)]
      omega

theorem lcsFuel_le_left :
    ∀ (fuel : Nat) (a b : List Char), lcsFuel fuel a b ≤ a.length := by
  intro fuel
  induction fuel with
  | zero => intro a b; simp [lcsFuel]
  | succ f ih =>
    intro a b
    match a, b with
    | [], _ => simp [lcsFuel]
    | _ :: _, [] => simp [lcsFuel]
    | x :: as, y :: bs =>
      simp only [lcsFuel, List.length_cons]
      by_cases hxy : (x == y) = true
      · rw [if_pos hxy]
        have := ih as bs
        omega
      · rw [if_neg hxy]
        have h1 := ih (x :: as) bs
        have h2 := ih as (y :: bs)
        simp only [List.length_cons] at h1
        rw [Nat.max_le]
        omega

theorem lcsFuel_le_right :
    ∀ (fuel : Nat) (a b : List Char), lcsFuel fuel a b ≤ b.length := by
  intro fuel
  induction fuel with
  | zero => intro a b; simp [lcsFuel]
  | succ f ih =>
    intro a b
    match a, b with
    | [], _ => simp [lcsFuel]
    | _ :: _, [] => simp [lcsFuel]
    | x :: as, y :: bs =>
      simp only [lcsFuel, List.length_cons]
      by_cases hxy : (x == y) = true
      · rw [if_pos hxy]
        have := ih as bs
        omega
      · rw [if_neg hxy]
        have h1 := ih (x :: as) bs
        have h2 := ih as (y :: bs)
        simp only [List.length_cons] at h2
        rw [Nat.max_le]
        omega

theorem eq_of_two_lcsFuel :
    ∀ (fuel : Nat) (a b : List Char), a.length + b.length ≤ fuel →
      2 * lcsFuel fuel a b = a.length + b.length → a = b := by
  intro fuel
  induction fuel with
  | zero =>
    intro a b hlen h2
    have ha : a = [] := List.eq_nil_of_length_eq_zero (by omega)
    have hb : b = [] := List.eq_nil_of_length_eq_zero (by omega)
    rw [ha, hb]
  | succ f ih =>
    intro a b hlen h2
    match a, b with
    | [], [] => rfl
    | [], y :: bs => simp [lcsFuel] at h2
    | x :: as, [] => simp [lcsFuel] at h2
    | x :: as, y :: bs =>
      simp only [lcsFuel, List.length_cons] at h2
      by_cases hxy : (x == y) = true
      · rw [if_pos hxy] at h2
        have hx : x = y := by simpa using hxy
        have h2' : 2 * lcsFuel f as bs = as.length + bs.length := by omega
        have hlen' : as.length + bs.length ≤ f := by
          simp only [List.length_cons] at hlen
          omega
        rw [hx, ih as bs hlen' h2']
      · rw [if_neg hxy] at h2
        exfalso
        have hu1 := lcsFuel_le_left f (x :: as) bs
        have hu2 := lcsFuel_le_right f (x :: as) bs
        have hv1 := lcsFuel_le_left f as (y :: bs)
        have hv2 := lcsFuel_le_right f as (y :: bs)
        simp only [List.length_cons] at hu1 hv2
        omega

theorem lcsLen_self (a : List Char) : lcsLen a a = a.length :=
  lcsFuel_self _ a (by omega)

theorem two_lcsLen_le (a b : List Char) :
    2 * lcsLen a b ≤ a.length + b.length := by
  have h1 := lcsFuel_le_left (a.length + b.length) a b
  have h2 := lcsFuel_le_right (a.length + b.length) a b
  rw [lcsLen]
  omega

theorem eq_of_two_lcsLen {a b : List Char}
    (h : 2 * lcsLen a b = a.length + b.length) : a = b :=
  eq_of_two_lcsFuel _ a b (Nat.le_refl _) h

theorem ratioQ_self (a : List Char) : ratioQ a a = 100 := by
  rw [ratioQ]
  by_cases h : a.length + a.length = 0
  · rw [if_pos h]
  · rw [if_neg h, lcsLen_self]
    have hne : ((a.length : ℚ) + (a.length : ℚ)) ≠ 0 := by
      have h0 : a.length ≠ 0 := by omega
      have : ((a.length : ℚ)) ≠ 0 := Nat.cast_ne_zero.mpr h0
      positivity
    rw [div_eq_iff hne]
    ring

theorem ratioQ_le_100 (a b : List Char) : ratioQ a b ≤ 100 := by
  rw [ratioQ]
  split
  · exact le_refl _
  · rename_i h
    have hlcs : 2 * lcsLen a b ≤ a.length + b.length := two_lcsLen_le a b
    have hpos : (0 : ℚ) < (a.length : ℚ) + (b.length : ℚ) := by
      have h0 : 0 < a.length + b.length := Nat.pos_of_ne_zero h
      exact_mod_cast h0
    rw [div_le_iff₀ hpos]
    have hc : ((2 * lcsLen a b : Nat) : ℚ) ≤ ((a.length + b.length : Nat) : ℚ) :=
      Nat.cast_le.mpr hlcs
    push_cast at hc
    nlinarith [hc]

theorem ratioQ_eq_100_iff (a b : List Char) : ratioQ a b = 100 ↔ a = b := by
  constructor
  · intro h
    rw [ratioQ] at h
    split at h
    · rename_i h0
      have ha : a = [] := List.eq_nil_of_length_eq_zero (by omega)
      have hb : b = [] := List.eq_nil_of_length_eq_zero (by omega)
      rw [ha, hb]
    · rename_i h0
      have hpos : (0 : ℚ) < (a.length : ℚ) + (b.length : ℚ) := by
        have hp : 0 < a.length + b.length := Nat.pos_of_ne_zero h0
        exact_mod_cast hp
      rw [div_eq_iff (ne_of_gt hpos)] at h
      have h2 : ((2 * lcsLen a b : Nat) : ℚ) = ((a.length + b.length : Nat) : ℚ) := by
        push_cast
        linarith
      exact eq_of_two_lcsLen (Nat.cast_injective h2)
  · rintro rfl
    exact ratioQ_self a

theorem tokenSortScore_le_100 (a b : String) : tokenSortScore a b ≤ 100 :=
  ratioQ_le_100 _ _

theorem tokenSortScore_eq_100_iff (a b : String) :
    tokenSortScore a b = 100 ↔ tokenSortJoin a = tokenSortJoin b :=
  ratioQ_eq_100_iff _ _

/-- `process.extractOne` scan: a later choice replaces the current best
only with a strictly greater score, so ties keep the earliest choice. -/
def extractOneAux (q : String) (best : String × ℚ) :
    List String → String × ℚ
  | [] => best
  | c :: cs =>
    extractOneAux q
      (if best.snd < tokenSortScore q c then (c, tokenSortScore q c)
       else best) cs

/-- `process.extractOne(q, choices, scorer=fuzz.token_sort_ratio)`:
the first best-scoring choice with its score; `none` on no choices. -/
def extractOne (q : String) : List String → Option (String × ℚ)
  | [] => none
  | c :: cs => some (extractOneAux q (c, tokenSortScore q c) cs)

/-- Python `list.index`: index of the first occurrence. -/
def pyIndexOf (x : String) : List String → Nat
  | [] => 0
  | y :: ys => if y == x then 0 else 1 + pyIndexOf x ys

/-- One entry of `fuzzy_map` (code.py lines 113-122): normalize the
source; extract the best normalized target under token-sort similarity;
if its score reaches the threshold, map to the ORIGINAL target found at
the first index of the best normalized form
(`people_names[pe_norm.index(best)]`), else to no match.  The script
fixes the threshold at 85. -/
def fuzzyMapOne (threshold : ℚ) (targets : List String)
    (src : String) : Option String :=
  match extractOne (normalize_text src) (targets.map normalize_text) with
  | none => none
  | some (best, score) =>
    if threshold ≤ score then
      targets[pyIndexOf best (targets.map normalize_text)]?
    else none

/-- Equality up to case, characters stripped by normalization, and word
order: equal token-sorted normalized forms. -/
abbrev tokenSortEquiv (a b : String) : Prop :=
  tokenSortJoin (normalize_text a) = tokenSortJoin (normalize_text b)

theorem extractOneAux_const_of_100 (q : String) :
    ∀ (cs : List String) (best : String × ℚ), best.snd = 100 →
      extractOneAux q best cs = best := by
  intro cs
  induction cs with
  | nil => intro best h; rfl
  | cons c cs' ih =>
    intro best h
    rw [extractOneAux,
      if_neg (by rw [h]; exact not_lt.mpr (tokenSortScore_le_100 q c))]
    exact ih best h

theorem extractOneAux_first_100 (q : String) :
    ∀ (n1 : List String) (best : String × ℚ) (c0 : String)
      (n2 : List String), best.snd < 100 →
      (∀ x ∈ n1, tokenSortScore q x < 100) →
      tokenSortScore q c0 = 100 →
      extractOneAux q best (n1 ++ c0 :: n2) = (c0, 100) := by
  intro n1
  induction n1 with
  | nil =>
    intro best c0 n2 hb _ h0
    rw [List.nil_append, extractOneAux, if_pos (by rw [h0]; exact hb), h0]
    exact extractOneAux_const_of_100 q n2 (c0, 100) rfl
  | cons x n1' ih =>
    intro best c0 n2 hb h1 h0
    rw [List.cons_append, extractOneAux]
    have hx : tokenSortScore q x < 100 := h1 x (List.mem_cons_self x _)
    by_cases hcond : best.snd < tokenSortScore q x
    · rw [if_pos hcond]
      exact ih (x, tokenSortScore q x) c0 n2 hx
        (fun y hy => h1 y (List.mem_cons_of_mem _ hy)) h0
    · rw [if_neg hcond]
      exact ih best c0 n2 hb
        (fun y hy => h1 y (List.mem_cons_of_mem _ hy)) h0

theorem extractOne_first_100 (q : String) (n1 : List String) (c0 : String)
    (n2 : List String) (h1 : ∀ x ∈ n1, tokenSortScore q x < 100)
    (h0 : tokenSortScore q c0 = 100) :
    extractOne q (n1 ++ c0 :: n2) = some (c0, 100) := by
  cases n1 with
  | nil =>
    rw [List.nil_append, extractOne]
    rw [h0]
    rw [extractOneAux_const_of_100 q n2 (c0, 100) rfl]
  | cons x n1' =>
    rw [List.cons_append, extractOne]
    rw [extractOneAux_first_100 q n1' (x, tokenSortScore q x) c0 n2
      (h1 x (List.mem_cons_self x _))
      (fun y hy => h1 y (List.mem_cons_of_mem _ hy)) h0]

theorem pyIndexOf_append (x : String) (n1 n2 : List String)
    (h : x ∉ n1) : pyIndexOf x (n1 ++ x :: n2) = n1.length := by
  induction n1 with
  | nil => simp [pyIndexOf]
  | cons y n1' ih =>
    have hyx : (y == x) = false := by
      have : y ≠ x := fun hc => h (hc ▸ List.mem_cons_self y n1')
      simpa using this
    rw [List.cons_append, pyIndexOf, hyx, if_neg (by simp),
      ih (fun hc => h (List.mem_cons_of_mem y hc))]
    simp [Nat.add_comm]

theorem getElem?_append_cons {α : Type} (l1 : List α) (a : α)
    (l2 : List α) : (l1 ++ a :: l2)[l1.length]? = some a := by
  induction l1 with
  | nil => simp
  | cons x l1' ih => simpa using ih

theorem exists_first_split {α : Type} (p : α → Prop) [DecidablePred p] :
    ∀ l : List α, (∃ x ∈ l, p x) →
      ∃ l1 x l2, l = l1 ++ x :: l2 ∧ p x ∧ ∀ y ∈ l1, ¬ p y := by
  intro l
  induction l with
  | nil => rintro ⟨x, hx, _⟩; cases hx
  | cons a as ih =>
    intro hex
    by_cases ha : p a
    · exact ⟨[], a, as, rfl, ha, by simp⟩
    · have hex' : ∃ x ∈ as, p x := by
        obtain ⟨x, hx, hpx⟩ := hex
        rcases List.mem_cons.mp hx with rfl | h2
        · exact absurd hpx ha
        · exact ⟨x, h2, hpx⟩
      obtain ⟨l1, x, l2, heq, hpx, hl1⟩ := ih hex'
      refine ⟨a :: l1, x, l2, by simp [heq], hpx, ?_⟩
      intro y hy
      rcases List.mem_cons.mp hy with rfl | h3
      · exact ha
      · exact hl1 y h3

/-- C7 counterexample: with TWO targets token-sort-equivalent to the
source, the matcher maps the source to the first of them, so the claim's
"maps the source to it", instantiated at the second equivalent target,
fails even though that target is scored 100. -/
theorem claim_C7_counterexample :
    (85 : ℚ) ≤ 100 ∧
    ("acme co." ∈ (["acme co", "acme co."] : List String)) ∧
    tokenSortEquiv "Acme Co" "acme co." ∧
    fuzzyMapOne 85 ["acme co", "acme co."] "Acme Co" = some "acme co" ∧
    fuzzyMapOne 85 ["acme co", "acme co."] "Acme Co" ≠ some "acme co." := by
  have hc0 : tokenSortScore (normalize_text "Acme Co")
      (normalize_text "acme co") = 100 := by
    rw [tokenSortScore_eq_100_iff]
    decide
  have hextract : extractOne (normalize_text "Acme Co")
      ((["acme co", "acme co."] : List String).map normalize_text) =
      some (normalize_text "acme co", 100) := by
    have h := extractOne_first_100 (normalize_text "Acme Co") []
      (normalize_text "acme co") [normalize_text "acme co."]
      (by simp) hc0
    simpa using h
  have hmap : fuzzyMapOne 85 ["acme co", "acme co."] "Acme Co" =
      some "acme co" := by
    simp only [fuzzyMapOne, hextract]
    rw [if_pos (by decide)]
    have hidx : pyIndexOf (normalize_text "acme co")
        ((["acme co", "acme co."] : List String).map normalize_text) = 0 := by
      decide
    rw [hidx]
    decide
  refine ⟨by decide, by decide, by decide, hmap, ?_⟩
  rw [hmap]
  decide

/-- C7 (amended): a target equal to the source up to normalization and
word order is always scored 100, and — for any threshold ≤ 100 — the
matcher maps the source to the FIRST token-sort-equivalent target in the
list order (so to "it" whenever the list holds exactly one equivalent
target). -/
theorem claim_C7 (thr : ℚ) (targets : List String) (src T : String)
    (hthr : thr ≤ 100) (hT : T ∈ targets) (heq : tokenSortEquiv src T) :
    tokenSortScore (normalize_text src) (normalize_text T) = 100 ∧
    ∃ l1 T0 l2, targets = l1 ++ T0 :: l2 ∧ tokenSortEquiv src T0 ∧
      (∀ x ∈ l1, ¬ tokenSortEquiv src x) ∧
      fuzzyMapOne thr targets src = some T0 := by
  have hscore :
      tokenSortScore (normalize_text src) (normalize_text T) = 100 := by
    rw [tokenSortScore_eq_100_iff]
    exact heq
  refine ⟨hscore, ?_⟩
  obtain ⟨l1, T0, l2, hsplit, hP, hl1⟩ :=
    exists_first_split (fun x => tokenSortEquiv src x) targets ⟨T, hT, heq⟩
  refine ⟨l1, T0, l2, hsplit, hP, hl1, ?_⟩
  have hnames : targets.map normalize_text =
      (l1.map normalize_text) ++
        normalize_text T0 :: (l2.map normalize_text) := by
    rw [hsplit]
    simp
  have hscored : ∀ x ∈ l1.map normalize_text,
      tokenSortScore (normalize_text src) x < 100 := by
    intro x hx
    obtain ⟨y, hy, rfl⟩ := List.mem_map.mp hx
    have hle := tokenSortScore_le_100 (normalize_text src) (normalize_text y)
    have hneq :
        tokenSortScore (normalize_text src) (normalize_text y) ≠ 100 :=
      fun hc => hl1 y hy ((tokenSortScore_eq_100_iff _ _).mp hc)
    exact lt_of_le_of_ne hle hneq
  have hc0 :
      tokenSortScore (normalize_text src) (normalize_text T0) = 100 := by
    rw [tokenSortScore_eq_100_iff]
    exact hP
  have hextract :
      extractOne (normalize_text src) (targets.map normalize_text) =
        some (normalize_text T0, 100) := by
    rw [hnames]
    exact extractOne_first_100 _ _ _ _ hscored hc0
  have hnotmem : normalize_text T0 ∉ l1.map normalize_text := by
    intro hc
    obtain ⟨y, hy, hyT⟩ := List.mem_map.mp hc
    apply hl1 y hy
    show tokenSortJoin (normalize_text src) = tokenSortJoin (normalize_text y)
    rw [hP, ← hyT]
  have hidx : pyIndexOf (normalize_text T0) (targets.map normalize_text) =
      l1.length := by
    rw [hnames, pyIndexOf_append _ _ _ hnotmem]
    simp
  simp only [fuzzyMapOne, hextract]
  rw [if_pos hthr, hidx, hsplit]
  exact getElem?_append_cons l1 T0 l2

theorem claim_C7_witness :
    ((85 : ℚ) ≤ 100) ∧ ("Capital Acme" ∈ (["Capital Acme"] : List String)) ∧
    tokenSortEquiv "Acme Capital" "Capital Acme" ∧
    (tokenSortScore (normalize_text "Acme Capital")
        (normalize_text "Capital Acme") = 100 ∧
      ∃ l1 T0 l2, (["Capital Acme"] : List String) = l1 ++ T0 :: l2 ∧
        tokenSortEquiv "Acme Capital" T0 ∧
        (∀ x ∈ l1, ¬ tokenSortEquiv "Acme Capital" x) ∧
        fuzzyMapOne 85 ["Capital Acme"] "Acme Capital" = some T0) :=
  ⟨by decide, by decide, by decide,
   claim_C7 85 ["Capital Acme"] "Acme Capital" "Capital Acme"
     (by decide) (by decide) (by decide)⟩

/- ### Overlap Analyzer (code.py lines 76-91) -/

/-- `set(series.unique())` over the already-normalized key values of one
column (first-seen order; only membership and size matter). -/
def uniqueVals (l : List String) : List String := dedupKeyFirst id l

/-- `len(inv_sets[ik].intersection(people_sets[pk]))` (code.py line 81). -/
def commonCount (lv rv : List String) : Nat :=
  ((uniqueVals lv).filter (fun v => (uniqueVals rv).contains v)).length

/-- One row of the overlap report (code.py lines 82-90): distinct counts,
intersection size, and the two coverage fractions (0 when a side's set is
empty). -/
structure OverlapRow where
  invUnique : Nat
  pplUnique : Nat
  common : Nat
  invPct : ℚ
  pplPct : ℚ

def overlapStats (lv rv : List String) : OverlapRow :=
  ⟨(uniqueVals lv).length, (uniqueVals rv).length, commonCount lv rv,
   if (uniqueVals lv).length = 0 then 0
   else (commonCount lv rv : ℚ) / ((uniqueVals lv).length : ℚ),
   if (uniqueVals rv).length = 0 then 0
   else (commonCount lv rv : ℚ) / ((uniqueVals rv).length : ℚ)⟩

/-- C8 fails on the code (the spec's design notes themselves flag this as
a likely latent bug): the distinct-value sets are built from the
normalized values WITHOUT excluding the empty string, so blank cells
present on both sides DO contribute to the reported overlap: on
`{"A",""}` vs `{"B",""}` the code reports intersection 1 and coverage
1/2, while the claim's exclusion semantics would report 0. -/
theorem claim_C8 :
    commonCount ["A", ""] ["B", ""] = 1 ∧
    (overlapStats ["A", ""] ["B", ""]).common = 1 ∧
    (overlapStats ["A", ""] ["B", ""]).invPct = 1 / 2 ∧
    commonCount (["A", ""].filter (fun v => v != ""))
      (["B", ""].filter (fun v => v != "")) = 0 := by
  have h1 : commonCount ["A", ""] ["B", ""] = 1 := by decide
  have h2 : (uniqueVals ["A", ""]).length = 2 := by decide
  refine ⟨h1, by simpa [overlapStats] using h1, ?_, by decide⟩
  simp only [overlapStats, h1, h2]
  norm_num
